import Mathlib

/-!
Verification of the response-streaming coordination core of the
CoffeeMarket voice-agent repository.

Strings coming from the Python side are modelled as `List Char`.
Python's `str.lower`, `str.split`, `str.strip`, `str.find`, slicing and
the `in` operator are embedded as executable functions below, and the
functions of `agent_manager/utils.py` (`find_spoken_portion`,
`redact_conversation_history`), the chunking loop of
`llm_handler.llm_call_response_streaming`, the history finalisation of
`agent.generate_agent_response_stream`, and the callback-handler state
machine of `agent_manager/handlers.py` are translated on top of them.
-/

/-- Python `str.lower` on one character. -/
def pyLower (c : Char) : Char := c.toLower

/-- The characters Python's `str.split()` / `str.strip()` treat as whitespace. -/
def pyIsSpace (c : Char) : Bool :=
  c = ' ' || c = '\t' || c = '\n' || c = '\r' || c = Char.ofNat 11 || c = Char.ofNat 12

/-- Helper for `pySplit`: accumulates the current word (reversed) while
scanning the input. -/
def pySplitAux : List Char → List Char → List (List Char)
  | cur, [] => if cur.isEmpty then [] else [cur.reverse]
  | cur, c :: rest =>
    if pyIsSpace c then
      if cur.isEmpty then pySplitAux [] rest else cur.reverse :: pySplitAux [] rest
    else pySplitAux (c :: cur) rest

/-- Python `str.split()` with no argument: split on runs of whitespace,
dropping empty words. -/
def pySplit (s : List Char) : List (List Char) := pySplitAux [] s

/-- Python `str.strip()`: drop leading and trailing whitespace. -/
def pyStrip (s : List Char) : List Char :=
  ((s.dropWhile pyIsSpace).reverse.dropWhile pyIsSpace).reverse

/-- Truthiness of `s.strip()` in Python (`if s.strip():`). -/
def stripTruthy (s : List Char) : Bool := !(pyStrip s).isEmpty

/-- Python `str.find`: index of the leftmost occurrence of `needle`,
`none` when absent. -/
def strFind (needle : List Char) : List Char → Option Nat
  | [] => if needle.isPrefixOf ([] : List Char) then some 0 else none
  | c :: t => if needle.isPrefixOf (c :: t) then some 0 else (strFind needle t).map (· + 1)

/-- Python `needle in hay` for strings. -/
def pyContainsB (needle hay : List Char) : Bool := (strFind needle hay).isSome

/-- Python `' '.join(words)`. -/
def joinWords (ws : List (List Char)) : List Char := List.intercalate [' '] ws

/-- The inner counting loop of the word-alignment fallback in
`find_spoken_portion` (utils.py lines 93-100): walking two word lists
right-to-left, count matches until the first mismatch (the `min_len`
bound is implicit in running out of either list).  The arguments are the
already-reversed word lists. -/
def matchCountRev : List (List Char) → List (List Char) → Nat
  | a :: as, b :: bs => if a = b then matchCountRev as bs + 1 else 0
  | _, _ => 0

/-- `match_count` computed for `utterance_words` against a prefix
`text_words` of the full word list, as in utils.py lines 92-100. -/
def trailingMatch (uttWords textWords : List (List Char)) : Nat :=
  matchCountRev uttWords.reverse textWords.reverse

/-- The `for end_pos in range(1, len(full_words) + 1)` loop of
`find_spoken_portion` (utils.py lines 88-107), over an explicit list of
candidate `end_pos` values: break (returning `end_pos`) on a full match,
otherwise overwrite `best_match_pos` whenever `match_count > 0`. -/
def bestMatchGo (uttWords fullWords : List (List Char)) : List Nat → Nat → Nat
  | [], best => best
  | e :: es, best =>
    let mc := trailingMatch uttWords (fullWords.take e)
    if mc = uttWords.length then e
    else bestMatchGo uttWords fullWords es (if 0 < mc then e else best)

/-- `find_spoken_portion` from `src/agent_manager/utils.py` (lines 57-115):
exact case-insensitive substring match first, then the word-by-word
suffix-alignment fallback, empty string when nothing matches. -/
def find_spoken_portion (full_text utterance_until_interrupt : List Char) : List Char :=
  if utterance_until_interrupt.isEmpty || full_text.isEmpty then []
  else
    let full_lower := full_text.map pyLower
    let utterance_lower := utterance_until_interrupt.map pyLower
    match strFind utterance_lower full_lower with
    | some start_pos => full_text.take (start_pos + utterance_lower.length)
    | none =>
      let full_words := pySplit full_lower
      let utterance_words := pySplit utterance_lower
      let original_words := pySplit full_text
      if utterance_words.isEmpty || full_words.isEmpty then []
      else
        let best_match_pos :=
          bestMatchGo utterance_words full_words (List.range' 1 full_words.length) 0
        if 0 < best_match_pos then joinWords (original_words.take best_match_pos) else []

/-- `(lower U)` occurs at position `j` of `(lower T)`: the spec-side
notion of a case-insensitive match at `j`. -/
def matchAtB (T U : List Char) (j : Nat) : Bool :=
  (U.map pyLower).isPrefixOf ((T.map pyLower).drop j)

-- basic facts about strFind

theorem strFind_some_matches (needle : List Char) :
    ∀ hay i, strFind needle hay = some i →
      needle.isPrefixOf (hay.drop i) = true ∧
        ∀ j, j < i → needle.isPrefixOf (hay.drop j) = false := by
  intro hay
  induction hay with
  | nil =>
    intro i h
    unfold strFind at h
    by_cases hp : needle.isPrefixOf ([] : List Char)
    · simp [hp] at h
      subst h
      exact ⟨hp, by intro j hj; omega⟩
    · simp [hp] at h
  | cons c t ih =>
    intro i h
    unfold strFind at h
    by_cases hp : needle.isPrefixOf (c :: t)
    · simp [hp] at h
      subst h
      exact ⟨by simpa using hp, by intro j hj; omega⟩
    · simp [hp] at h
      obtain ⟨i', hi', rfl⟩ := h
      obtain ⟨h1, h2⟩ := ih i' hi'
      refine ⟨by simpa using h1, ?_⟩
      intro j hj
      cases j with
      | zero =>
        simp only [List.drop_zero]
        exact Bool.eq_false_iff.mpr hp
      | succ j' => simpa using h2 j' (by omega)

theorem strFind_isSome_of_matchAt (needle : List Char) :
    ∀ hay j, needle.isPrefixOf (hay.drop j) = true → (strFind needle hay).isSome := by
  intro hay
  induction hay with
  | nil =>
    intro j hj
    simp only [List.drop_nil] at hj
    unfold strFind
    simp [hj]
  | cons c t ih =>
    intro j hj
    unfold strFind
    by_cases hp : needle.isPrefixOf (c :: t)
    · simp [hp]
    · have hp' : needle.isPrefixOf (c :: t) = false := Bool.eq_false_iff.mpr hp
      simp only [hp', Bool.false_eq_true, if_false]
      cases j with
      | zero => exact absurd (by simpa using hj) hp
      | succ j' =>
        have h2 := ih j' (by simpa using hj)
        obtain ⟨v, hv⟩ := Option.isSome_iff_exists.mp h2
        rw [hv]
        rfl

/-- C7.  `find_spoken_portion T "" = ""` for every `T`; and whenever the
non-empty utterance `U` is a case-insensitive substring of `T`, the
function returns the original-cased prefix of `T` up to and including
the end of the first (leftmost) match. -/
theorem find_spoken_portion_exact_match :
    (∀ T : List Char, find_spoken_portion T [] = []) ∧
      (∀ T U : List Char, U ≠ [] → (∃ j, matchAtB T U j = true) →
        ∃ i, matchAtB T U i = true ∧ (∀ j, j < i → matchAtB T U j = false) ∧
          find_spoken_portion T U = T.take (i + U.length)) := by
  constructor
  · intro T
    simp [find_spoken_portion]
  · intro T U hU hex
    obtain ⟨j, hj⟩ := hex
    have hTne : T ≠ [] := by
      intro hT
      subst hT
      unfold matchAtB at hj
      simp only [List.map_nil, List.drop_nil, List.isPrefixOf] at hj
      rcases hUc : U with _ | ⟨u, us⟩
      · exact hU hUc
      · rw [hUc] at hj; simp [List.isPrefixOf] at hj
    have hsome : (strFind (U.map pyLower) (T.map pyLower)).isSome :=
      strFind_isSome_of_matchAt _ _ j (by simpa [matchAtB] using hj)
    obtain ⟨i, hi⟩ := Option.isSome_iff_exists.mp hsome
    obtain ⟨h1, h2⟩ := strFind_some_matches _ _ _ hi
    refine ⟨i, by simpa [matchAtB] using h1, ?_, ?_⟩
    · intro j' hj'
      simpa [matchAtB] using h2 j' hj'
    · unfold find_spoken_portion
      have hUe : U.isEmpty = false := by
        cases U with
        | nil => exact absurd rfl hU
        | cons a l => rfl
      have hTe : T.isEmpty = false := by
        cases T with
        | nil => exact absurd rfl hTne
        | cons a l => rfl
      simp only [hUe, hTe, Bool.or_self, Bool.false_eq_true, if_false, hi]
      simp [List.length_map]

/-- Witness for C7 on the spec's own example. -/
theorem find_spoken_portion_exact_match_witness :
    ∃ i, matchAtB "Thank you for calling CoffeeMarket! Goodbye!".data
          "thank you for calling".data i = true ∧
        (∀ j, j < i → matchAtB "Thank you for calling CoffeeMarket! Goodbye!".data
          "thank you for calling".data j = false) ∧
        find_spoken_portion "Thank you for calling CoffeeMarket! Goodbye!".data
            "thank you for calling".data =
          ("Thank you for calling CoffeeMarket! Goodbye!".data).take
            (i + ("thank you for calling".data).length) :=
  find_spoken_portion_exact_match.2
    "Thank you for calling CoffeeMarket! Goodbye!".data
    "thank you for calling".data (by decide) ⟨0, by decide⟩

-- word-by-word fallback of find_spoken_portion (utils.py lines 79-115)

/-- Lowercased word list of the full text, as computed in the fallback. -/
def fullWordsL (T : List Char) : List (List Char) := pySplit (T.map pyLower)

/-- Lowercased word list of the utterance, as computed in the fallback. -/
def uttWordsL (U : List Char) : List (List Char) := pySplit (U.map pyLower)

/-- The `match_count` obtained for prefix length `e` of the full word list. -/
def tmAt (T U : List Char) (e : Nat) : Nat :=
  trailingMatch (uttWordsL U) ((fullWordsL T).take e)

theorem getLast?_cons_getD_eq {α : Type} (x : α) (xs : List α) (d1 d2 : α) :
    (x :: xs).getLast?.getD d1 = (x :: xs).getLast?.getD d2 := by
  induction xs generalizing x with
  | nil => rfl
  | cons y ys ih =>
    rw [List.getLast?_cons_cons]
    exact ih y

theorem bestMatchGo_eq_of_no_full (utt full : List (List Char)) :
    ∀ (ps : List Nat) (best : Nat),
      (∀ e ∈ ps, trailingMatch utt (full.take e) ≠ utt.length) →
      bestMatchGo utt full ps best =
        ((ps.filter fun e => decide (0 < trailingMatch utt (full.take e))).getLast?).getD best := by
  intro ps
  induction ps with
  | nil => intro best _; simp [bestMatchGo]
  | cons e es ih =>
    intro best h
    have he := h e (by simp)
    have hrec : ∀ x ∈ es, trailingMatch utt (full.take x) ≠ utt.length := by
      intro x hx; exact h x (by simp [hx])
    simp only [bestMatchGo, if_neg he, List.filter_cons]
    by_cases hq : 0 < trailingMatch utt (full.take e)
    · rw [if_pos hq, ih e hrec]
      simp only [decide_eq_true_eq]
      rw [if_pos hq]
      cases hfe : (es.filter fun x => decide (0 < trailingMatch utt (full.take x))) with
      | nil => rfl
      | cons x xs =>
        rw [List.getLast?_cons_cons]
        exact getLast?_cons_getD_eq x xs e best
    · rw [if_neg hq, ih best hrec]
      simp only [decide_eq_true_eq]
      rw [if_neg hq]

theorem bestMatchGo_eq_of_full (utt full : List (List Char)) :
    ∀ (as : List Nat) (e : Nat) (bs : List Nat) (best : Nat),
      (∀ x ∈ as, trailingMatch utt (full.take x) ≠ utt.length) →
      trailingMatch utt (full.take e) = utt.length →
      bestMatchGo utt full (as ++ e :: bs) best = e := by
  intro as
  induction as with
  | nil =>
    intro e bs best _ he
    simp [bestMatchGo, he]
  | cons a as' ih =>
    intro e bs best h he
    have ha := h a (by simp)
    simp only [List.cons_append, bestMatchGo, if_neg ha]
    exact ih e bs _ (fun x hx => h x (by simp [hx])) he

theorem filter_getLast_of_greatest {p : Nat → Bool} {l : List Nat} {b : Nat}
    (hsort : l.Pairwise (· < ·)) (hb : b ∈ l) (hpb : p b = true)
    (hafter : ∀ e ∈ l, b < e → p e = false) :
    (l.filter p).getLast? = some b := by
  obtain ⟨as, bs, rfl⟩ := List.append_of_mem hb
  have hpw := List.pairwise_append.mp hsort
  have hbs : bs.filter p = [] := by
    rw [List.filter_eq_nil_iff]
    intro y hy
    have hby : b < y := (List.pairwise_cons.mp hpw.2.1).1 y hy
    simp [hafter y (by simp [hy]) hby]
  rw [List.filter_append, List.filter_cons, if_pos hpb, hbs]
  exact List.getLast?_concat _

/-- C3 (amended).  In the word-alignment fallback (non-empty utterance
that is not a case-insensitive substring, both word lists non-empty):
if some prefix length fully matches all utterance words, the function
returns the words up to the smallest such prefix length; if no prefix
fully matches, it returns the words up to the LARGEST prefix length
whose trailing match count is positive (not the prefix length with the
best partial match count, which the code overwrites); if every prefix
has a zero trailing match it returns the empty string. -/
theorem find_spoken_portion_word_alignment (T U : List Char)
    (hU : U ≠ [])
    (hnosub : strFind (U.map pyLower) (T.map pyLower) = none)
    (huw : uttWordsL U ≠ [])
    (hfw : fullWordsL T ≠ []) :
    (∀ b ∈ List.range' 1 (fullWordsL T).length,
        tmAt T U b = (uttWordsL U).length →
        (∀ e ∈ List.range' 1 (fullWordsL T).length, e < b → tmAt T U e ≠ (uttWordsL U).length) →
        find_spoken_portion T U = joinWords ((pySplit T).take b))
    ∧ ((∀ e ∈ List.range' 1 (fullWordsL T).length, tmAt T U e ≠ (uttWordsL U).length) →
        ∀ b ∈ List.range' 1 (fullWordsL T).length,
          0 < tmAt T U b →
          (∀ e ∈ List.range' 1 (fullWordsL T).length, b < e → tmAt T U e = 0) →
          find_spoken_portion T U = joinWords ((pySplit T).take b))
    ∧ ((∀ e ∈ List.range' 1 (fullWordsL T).length, tmAt T U e = 0) →
        find_spoken_portion T U = []) := by
  have hTne : T ≠ [] := by
    intro hT
    apply hfw
    rw [hT]
    rfl
  have hUe : U.isEmpty = false := by cases U with | nil => exact absurd rfl hU | cons a l => rfl
  have hTe : T.isEmpty = false := by cases T with | nil => exact absurd rfl hTne | cons a l => rfl
  have huwe : (uttWordsL U).isEmpty = false := by
    cases hc : uttWordsL U with | nil => exact absurd hc huw | cons a l => rfl
  have hfwe : (fullWordsL T).isEmpty = false := by
    cases hc : fullWordsL T with | nil => exact absurd hc hfw | cons a l => rfl
  have hmain : find_spoken_portion T U =
      (if 0 < bestMatchGo (uttWordsL U) (fullWordsL T)
            (List.range' 1 (fullWordsL T).length) 0 then
        joinWords ((pySplit T).take (bestMatchGo (uttWordsL U) (fullWordsL T)
          (List.range' 1 (fullWordsL T).length) 0))
      else []) := by
    unfold find_spoken_portion
    simp only [hUe, hTe, Bool.or_self, Bool.false_eq_true, if_false, hnosub]
    simp only [uttWordsL, fullWordsL] at huwe hfwe ⊢
    simp only [huwe, hfwe, Bool.or_self, Bool.false_eq_true, if_false]
  refine ⟨?_, ?_, ?_⟩
  · intro b hb hfull hleast
    obtain ⟨as, bs, hdecomp⟩ := List.append_of_mem hb
    have hsort : (List.range' 1 (fullWordsL T).length).Pairwise (· < ·) :=
      List.pairwise_lt_range' 1 (fullWordsL T).length
    rw [hdecomp] at hsort
    have hpw := List.pairwise_append.mp hsort
    have hasmall : ∀ x ∈ as, x < b := fun x hx => hpw.2.2 x hx b (by simp)
    have hasne : ∀ x ∈ as, trailingMatch (uttWordsL U) ((fullWordsL T).take x)
        ≠ (uttWordsL U).length := by
      intro x hx
      exact hleast x (by rw [hdecomp]; exact List.mem_append_left _ hx) (hasmall x hx)
    have hb1 : 0 < b := by
      have := List.mem_range'.mp hb
      omega
    rw [hmain, hdecomp, bestMatchGo_eq_of_full _ _ as b bs 0 hasne hfull, if_pos hb1]
  · intro hnofull b hb hpos hafter
    have hgo := bestMatchGo_eq_of_no_full (uttWordsL U) (fullWordsL T)
      (List.range' 1 (fullWordsL T).length) 0 hnofull
    have hlast : ((List.range' 1 (fullWordsL T).length).filter
        fun e => decide (0 < trailingMatch (uttWordsL U) ((fullWordsL T).take e))).getLast?
        = some b := by
      apply filter_getLast_of_greatest (List.pairwise_lt_range' 1 (fullWordsL T).length) hb
      · simpa [tmAt] using hpos
      · intro e he hbe
        have := hafter e he hbe
        simp only [tmAt] at this
        simp [this]
    have hb1 : 0 < b := by
      have := List.mem_range'.mp hb
      omega
    rw [hmain, hgo, hlast]
    simp [hb1]
  · intro hzero
    have hgo := bestMatchGo_eq_of_no_full (uttWordsL U) (fullWordsL T)
      (List.range' 1 (fullWordsL T).length) 0 (by
        intro e he
        have := hzero e he
        simp only [tmAt] at this
        rw [this]
        intro hlen
        apply huw
        cases hc : uttWordsL U with
        | nil => rfl
        | cons a l => rw [hc] at hlen; simp at hlen)
    have hfe : ((List.range' 1 (fullWordsL T).length).filter
        fun e => decide (0 < trailingMatch (uttWordsL U) ((fullWordsL T).take e))) = [] := by
      rw [List.filter_eq_nil_iff]
      intro e he
      have := hzero e he
      simp only [tmAt] at this
      simp [this]
    rw [hmain, hgo, hfe]
    simp

/-- Counterexample to C3 as stated: for full text `"a b c x c"` and
utterance `"q b c"`, no prefix achieves a full match; the best (largest)
partial trailing match is 2, achieved at prefix length 3, yet the code
returns the prefix of length 5 (whose trailing match is only 1), because
the loop overwrites the position on ANY positive partial match. -/
theorem find_spoken_portion_word_alignment_counterexample :
    find_spoken_portion "a b c x c".data "q b c".data = "a b c x c".data ∧
    "a b c x c".data ≠ joinWords ((pySplit "a b c x c".data).take 3) ∧
    tmAt "a b c x c".data "q b c".data 3 = 2 ∧
    tmAt "a b c x c".data "q b c".data 5 = 1 ∧
    ((List.range' 1 5).all fun e =>
      decide (tmAt "a b c x c".data "q b c".data e ≠ 3)) = true ∧
    ((List.range' 1 5).all fun e =>
      decide (tmAt "a b c x c".data "q b c".data e ≤ 2)) = true := by
  decide

/-- Witness for C3 (amended), second branch: with full text
`"Hello, world today"` and utterance `"hello world"` (punctuation breaks
the substring match), the largest prefix length with a positive trailing
match is 2, and the function indeed returns the first two original words. -/
theorem find_spoken_portion_word_alignment_witness :
    find_spoken_portion "Hello, world today".data "hello world".data
      = joinWords ((pySplit "Hello, world today".data).take 2) :=
  (find_spoken_portion_word_alignment "Hello, world today".data "hello world".data
      (by decide) (by decide) (by decide) (by decide)).2.1
    (by decide) 2 (by decide) (by decide) (by decide)

-- conversation-history redaction (utils.py lines 2-54)

/-- One entry of a session's conversation history, as stored by
`agent.generate_agent_response_stream`: a role, a content string, and an
optional `"type"` tag (`some "interstitial"` for interstitial entries). -/
structure HistEntry where
  role : String
  content : List Char
  type : Option String
deriving DecidableEq

/-- The entries `redact_conversation_history` is willing to redact:
role `"assistant"` and not tagged as an interstitial (utils.py lines 21-25). -/
def isRealAssistant (e : HistEntry) : Bool :=
  e.role == "assistant" && !(e.type == some "interstitial")

/-- The backwards scan of utils.py lines 20-52, expressed on the reversed
history: find the first entry that is a non-interstitial assistant message;
replace its content with the spoken portion when that portion is non-blank,
drop the entry entirely otherwise; `none` when no such entry exists. -/
def redactRev (utt : List Char) : List HistEntry → Option (List HistEntry)
  | [] => none
  | e :: rest =>
    if isRealAssistant e then
      let spoken := find_spoken_portion e.content utt
      if stripTruthy spoken then some ({ e with content := spoken } :: rest)
      else some rest
    else (redactRev utt rest).map (e :: ·)

/-- The `success`/`message` part of the dict returned by
`redact_conversation_history`. -/
structure RedactResult where
  success : Bool
  message : String
deriving DecidableEq

/-- `redact_conversation_history` from `src/agent_manager/utils.py`
(lines 2-54), for one session's history list: result and updated history. -/
def redact_conversation_history (history : List HistEntry)
    (utterance_until_interrupt : List Char) : RedactResult × List HistEntry :=
  if history.isEmpty then (⟨false, "No conversation history found"⟩, history)
  else
    match redactRev utterance_until_interrupt history.reverse with
    | some rev' => (⟨true, "Conversation history redacted"⟩, rev'.reverse)
    | none => (⟨false, "No assistant message found to redact"⟩, history)

theorem redactRev_eq_none_iff (utt : List Char) :
    ∀ l : List HistEntry, redactRev utt l = none ↔ ∀ e ∈ l, isRealAssistant e = false := by
  intro l
  induction l with
  | nil => simp [redactRev]
  | cons e rest ih =>
    by_cases he : isRealAssistant e
    · simp only [redactRev, if_pos he]
      constructor
      · intro h
        by_cases hs : stripTruthy (find_spoken_portion e.content utt) <;> simp [hs] at h
      · intro h
        have := h e (by simp)
        rw [he] at this
        cases this
    · have he' : isRealAssistant e = false := Bool.eq_false_iff.mpr he
      simp only [redactRev, he', Bool.false_eq_true, if_false, Option.map_eq_none']
      rw [ih]
      constructor
      · intro h x hx
        rcases List.mem_cons.mp hx with h1 | h2
        · rw [h1]; exact he'
        · exact h x h2
      · intro h x hx
        exact h x (by simp [hx])

theorem redactRev_skip (utt : List Char) :
    ∀ (a l : List HistEntry), (∀ x ∈ a, isRealAssistant x = false) →
      redactRev utt (a ++ l) = (redactRev utt l).map (a ++ ·) := by
  intro a
  induction a with
  | nil =>
    intro l _
    simp only [List.nil_append]
    cases redactRev utt l <;> rfl
  | cons x a' ih =>
    intro l h
    have hx : isRealAssistant x = false := h x (by simp)
    simp only [List.cons_append, redactRev, hx, Bool.false_eq_true, if_false, List.append_eq]
    rw [ih l (fun y hy => h y (by simp [hy]))]
    cases redactRev utt l <;> rfl

theorem redactRev_some_decomp (utt : List Char) :
    ∀ (l l' : List HistEntry), redactRev utt l = some l' →
      ∃ a e b, l = a ++ e :: b ∧ (∀ x ∈ a, isRealAssistant x = false) ∧
        isRealAssistant e = true ∧
        (l' = a ++ { e with content := find_spoken_portion e.content utt } :: b ∨
          l' = a ++ b) := by
  intro l
  induction l with
  | nil => intro l' h; simp [redactRev] at h
  | cons e rest ih =>
    intro l' h
    by_cases he : isRealAssistant e
    · simp only [redactRev, if_pos he] at h
      by_cases hs : stripTruthy (find_spoken_portion e.content utt)
      · rw [if_pos hs] at h
        refine ⟨[], e, rest, by simp, by simp, he, ?_⟩
        left
        simpa using h.symm
      · rw [if_neg hs] at h
        refine ⟨[], e, rest, by simp, by simp, he, ?_⟩
        right
        simpa using h.symm
    · have he' : isRealAssistant e = false := Bool.eq_false_iff.mpr he
      simp only [redactRev, he', Bool.false_eq_true, if_false, Option.map_eq_some'] at h
      obtain ⟨r', hr', rfl⟩ := h
      obtain ⟨a, x, b, hdec, ha, hx, hres⟩ := ih r' hr'
      refine ⟨e :: a, x, b, by simp [hdec], ?_, hx, ?_⟩
      · intro y hy
        rcases List.mem_cons.mp hy with h1 | h2
        · rw [h1]; exact he'
        · exact ha y h2
      · rcases hres with h1 | h1
        · left; simp [h1]
        · right; simp [h1]

theorem set_append_len {α : Type} : ∀ (xs : List α) (v e : α) (ys : List α),
    (xs ++ e :: ys).set xs.length v = xs ++ v :: ys := by
  intro xs
  induction xs with
  | nil => intro v e ys; rfl
  | cons x xs' ih => intro v e ys; simp [List.set, ih]

theorem eraseIdx_append_len {α : Type} : ∀ (xs : List α) (e : α) (ys : List α),
    (xs ++ e :: ys).eraseIdx xs.length = xs ++ ys := by
  intro xs
  induction xs with
  | nil => intro e ys; rfl
  | cons x xs' ih => intro e ys; simp [List.eraseIdx, ih]

theorem get?_append_len {α : Type} : ∀ (xs : List α) (e : α) (ys : List α),
    (xs ++ e :: ys).get? xs.length = some e := by
  intro xs
  induction xs with
  | nil => intro e ys; rfl
  | cons x xs' ih => intro e ys; simpa using ih e ys

/-- C10.  The redaction operation never adds entries: it either leaves
the history unchanged (whenever it reports failure), replaces the
content of exactly one non-interstitial assistant entry with the
computed spoken portion, or removes exactly one such entry — every other
entry is untouched and stays in order. -/
theorem redact_conversation_history_frame (history : List HistEntry) (utt : List Char) :
    ((redact_conversation_history history utt).1.success = false →
      (redact_conversation_history history utt).2 = history)
    ∧ ((redact_conversation_history history utt).1.success = true →
      ∃ i e, history.get? i = some e ∧ isRealAssistant e = true ∧
        ((redact_conversation_history history utt).2 =
            history.set i { e with content := find_spoken_portion e.content utt } ∨
          (redact_conversation_history history utt).2 = history.eraseIdx i)) := by
  by_cases hemp : history.isEmpty
  · constructor
    · intro _
      simp [redact_conversation_history, hemp]
    · intro hsucc
      simp [redact_conversation_history, hemp] at hsucc
  · have hemp' : history.isEmpty = false := Bool.eq_false_iff.mpr hemp
    cases hrev : redactRev utt history.reverse with
    | none =>
      constructor
      · intro _
        simp [redact_conversation_history, hemp', hrev]
      · intro hsucc
        simp [redact_conversation_history, hemp', hrev] at hsucc
    | some rev' =>
      obtain ⟨a, e, b, hdec, ha, he, hres⟩ := redactRev_some_decomp utt history.reverse rev' hrev
      have hhist : history = b.reverse ++ e :: a.reverse := by
        have := congrArg List.reverse hdec
        simpa using this
      constructor
      · intro hfail
        simp [redact_conversation_history, hemp', hrev] at hfail
      · intro _
        refine ⟨b.reverse.length, e, ?_, he, ?_⟩
        · rw [hhist]
          exact get?_append_len b.reverse e a.reverse
        · have hout : (redact_conversation_history history utt).2 = rev'.reverse := by
            simp [redact_conversation_history, hemp', hrev]
          rcases hres with h1 | h1
          · left
            rw [hout, h1, hhist, set_append_len]
            simp
          · right
            rw [hout, h1, hhist, eraseIdx_append_len]
            simp

/-- Witness for C10 at a concrete failing input: on an empty history the
operation reports failure and leaves the history unchanged. -/
theorem redact_conversation_history_frame_witness :
    (redact_conversation_history [] "x".data).2 = [] :=
  (redact_conversation_history_frame [] "x".data).1 (by decide)

/-- C9 (amended).  When the history contains exactly one non-interstitial
assistant entry and the first redaction call REMOVES it (the computed
spoken portion is blank), a second call with the same spoken text — other
entries remaining — fails with "No assistant message found to redact".
(When the first call merely shortens the entry, the second call finds the
shortened entry and succeeds again; see the counterexample.) -/
theorem redact_conversation_history_twice (p q : List HistEntry) (en : HistEntry)
    (utt : List Char)
    (hp : ∀ x ∈ p, isRealAssistant x = false)
    (hq : ∀ x ∈ q, isRealAssistant x = false)
    (he : isRealAssistant en = true)
    (hs : stripTruthy (find_spoken_portion en.content utt) = false)
    (hne : p ++ q ≠ []) :
    (redact_conversation_history (p ++ en :: q) utt).1.success = true ∧
    (redact_conversation_history ((redact_conversation_history (p ++ en :: q) utt).2) utt).1 =
      ⟨false, "No assistant message found to redact"⟩ := by
  have hemp : (p ++ en :: q).isEmpty = false := by
    cases p with
    | nil => rfl
    | cons x xs => rfl
  have hrev : (p ++ en :: q).reverse = q.reverse ++ en :: p.reverse := by
    simp
  have hskip := redactRev_skip utt q.reverse (en :: p.reverse)
    (fun x hx => hq x (List.mem_reverse.mp hx))
  have hfound : redactRev utt (en :: p.reverse) = some p.reverse := by
    simp only [redactRev, if_pos he, hs, Bool.false_eq_true, if_false]
  have hr : redactRev utt (p ++ en :: q).reverse = some (q.reverse ++ p.reverse) := by
    rw [hrev, hskip, hfound]
    rfl
  have hfirst : redact_conversation_history (p ++ en :: q) utt =
      (⟨true, "Conversation history redacted"⟩, p ++ q) := by
    simp only [redact_conversation_history, hemp, Bool.false_eq_true, if_false, hr]
    simp
  have hemp2 : (p ++ q).isEmpty = false := by
    cases hpq : p ++ q with
    | nil => exact absurd hpq hne
    | cons x xs => rfl
  have hnone : redactRev utt (p ++ q).reverse = none := by
    rw [redactRev_eq_none_iff]
    intro x hx
    rcases List.mem_append.mp (List.mem_reverse.mp hx) with h1 | h1
    · exact hp x h1
    · exact hq x h1
  constructor
  · rw [hfirst]
  · rw [hfirst]
    simp only [redact_conversation_history, hemp2, Bool.false_eq_true, if_false, hnone]

/-- Counterexample to C9 as stated: one real assistant entry
`"hello world"`, spoken text `"hello"`.  The first call UPDATES (rather
than removes) the entry, so the second call finds it again and succeeds —
it does not return "No assistant message found to redact". -/
theorem redact_conversation_history_twice_counterexample :
    (redact_conversation_history
        ((redact_conversation_history
          [⟨"assistant", "hello world".data, none⟩] "hello".data).2) "hello".data).1 =
      ⟨true, "Conversation history redacted"⟩ ∧
    (redact_conversation_history
        ((redact_conversation_history
          [⟨"assistant", "hello world".data, none⟩] "hello".data).2) "hello".data).1.message ≠
      "No assistant message found to redact" := by
  decide

/-- Witness for C9 (amended): history `[user "hi", assistant "xyz"]`,
spoken text `"qqq"` matches nothing, so the first call removes the
assistant entry and the second call fails as claimed. -/
theorem redact_conversation_history_twice_witness :
    (redact_conversation_history
        [⟨"user", "hi".data, none⟩, ⟨"assistant", "xyz".data, none⟩] "qqq".data).1.success
      = true ∧
    (redact_conversation_history
        ((redact_conversation_history
          [⟨"user", "hi".data, none⟩, ⟨"assistant", "xyz".data, none⟩] "qqq".data).2)
        "qqq".data).1 =
      ⟨false, "No assistant message found to redact"⟩ :=
  redact_conversation_history_twice [⟨"user", "hi".data, none⟩] []
    ⟨"assistant", "xyz".data, none⟩ "qqq".data
    (by decide) (by decide) (by decide) (by decide) (by decide)

-- outbound chunking and intent flags (llm_handler.py lines 38-214)

/-- The per-chunk record yielded by `generate_agent_response_stream` and
consumed by `llm_call_response_streaming` (the dict of agent.py
lines 171-177 / 182-188 / 220-226). -/
structure ChunkData where
  chunk : List Char
  is_final : Bool
  should_end_call : Bool
  should_handoff : Bool
  is_interstitial : Bool
deriving DecidableEq

/-- Python `chunk.strip().endswith(('.', '!', '?', ',', ';', ':'))`
(llm_handler.py line 105). -/
def endsPunct (s : List Char) : Bool :=
  match (pyStrip s).getLast? with
  | some c => c = '.' || c = '!' || c = '?' || c = ',' || c = ';' || c = ':'
  | none => false

/-- The length validation of llm_handler.py lines 110-113: buffers over
200 characters are cut to their first 197 characters plus `"..."`. -/
def capChunk (buf : List Char) : List Char :=
  if 200 < buf.length then buf.take 197 ++ "...".data else buf

/-- The token texts sent over the websocket by the streaming loop of
`llm_call_response_streaming` (llm_handler.py lines 64-146), as a
function of the incoming chunk stream and the current `token_buffer`:
interstitials pass through directly; other chunks are buffered and
flushed (through `capChunk`) on finality, a three-word batch or trailing
punctuation; at end of stream a non-blank leftover buffer is sent
WITHOUT truncation (lines 129-137), followed by the empty completion
token (lines 140-145). -/
def llm_chunk_send : List ChunkData → List Char → List (List Char)
  | [], token_buffer =>
    (if stripTruthy token_buffer then [token_buffer] else []) ++ [[]]
  | c :: cs, token_buffer =>
    if c.is_interstitial then c.chunk :: llm_chunk_send cs token_buffer
    else
      let buffer' := token_buffer ++ c.chunk
      let words_in_buffer := (pySplit (pyStrip buffer')).length
      let should_send := c.is_final || 3 ≤ words_in_buffer || endsPunct c.chunk
      if should_send && stripTruthy buffer' then
        capChunk buffer' :: llm_chunk_send cs []
      else llm_chunk_send cs buffer'

theorem capChunk_length_le (buf : List Char) : (capChunk buf).length ≤ 200 := by
  unfold capChunk
  by_cases h : 200 < buf.length
  · rw [if_pos h]
    have h3 : ("...".data).length = 3 := rfl
    simp only [List.length_append, List.length_take, h3]
    omega
  · rw [if_neg h]
    omega

/-- C2 (amended).  Whenever the chunk stream ends with a final,
non-interstitial event — which `generate_agent_response_stream`
guarantees on both its success and failure paths — the leftover buffer
is always flushed (with truncation) inside the loop, so provided
interstitial phrases themselves fit in 200 characters, every token text
sent over the websocket is at most 200 characters.  (The end-of-stream
leftover flush itself performs NO truncation; it is only harmless
because it is never reached with a non-blank buffer under this
hypothesis — see the counterexample.) -/
theorem llm_chunk_send_cap (events : List ChunkData) (e : ChunkData)
    (hl : events.getLast? = some e) (hf : e.is_final = true) (hi : e.is_interstitial = false)
    (hint : ∀ x ∈ events, x.is_interstitial = true → x.chunk.length ≤ 200) :
    ∀ c ∈ llm_chunk_send events [], c.length ≤ 200 := by
  suffices h : ∀ (evs : List ChunkData) (buf : List Char),
      evs.getLast? = some e → (∀ x ∈ evs, x.is_interstitial = true → x.chunk.length ≤ 200) →
      ∀ c ∈ llm_chunk_send evs buf, c.length ≤ 200 by
    exact h events [] hl hint
  intro evs
  induction evs with
  | nil => intro buf h _; simp at h
  | cons x cs ih =>
    intro buf hlast hints c hc
    cases cs with
    | nil =>
      have hx : x = e := by simpa using hlast
      subst hx
      have hxi : x.is_interstitial = false := hi
      unfold llm_chunk_send at hc
      rw [hxi] at hc
      simp only [Bool.false_eq_true, if_false] at hc
      rw [hf] at hc
      simp only [Bool.true_or, Bool.true_and] at hc
      by_cases hst : stripTruthy (buf ++ x.chunk)
      · rw [if_pos hst] at hc
        rcases List.mem_cons.mp hc with h1 | h1
        · rw [h1]; exact capChunk_length_le _
        · have hnil : llm_chunk_send [] ([] : List Char) = [[]] := rfl
          rw [hnil] at h1
          simp at h1
          rw [h1]
          simp
      · rw [if_neg hst] at hc
        unfold llm_chunk_send at hc
        have hst' : stripTruthy (buf ++ x.chunk) = false := Bool.eq_false_iff.mpr hst
        rw [hst'] at hc
        simp at hc
        rw [hc]
        simp
    | cons y ys =>
      have hlast' : (y :: ys).getLast? = some e := by
        rw [← List.getLast?_cons_cons (a := x)]
        exact hlast
      have hints' : ∀ z ∈ y :: ys, z.is_interstitial = true → z.chunk.length ≤ 200 := by
        intro z hz
        exact hints z (by simp [hz])
      unfold llm_chunk_send at hc
      by_cases hxi : x.is_interstitial
      · rw [hxi] at hc
        simp only [if_true] at hc
        rcases List.mem_cons.mp hc with h1 | h1
        · rw [h1]
          exact hints x (by simp) hxi
        · exact ih buf hlast' hints' c h1
      · have hxi' : x.is_interstitial = false := Bool.eq_false_iff.mpr hxi
        rw [hxi'] at hc
        simp only [Bool.false_eq_true, if_false] at hc
        by_cases hsend : (x.is_final || 3 ≤ (pySplit (pyStrip (buf ++ x.chunk))).length
            || endsPunct x.chunk) && stripTruthy (buf ++ x.chunk)
        · rw [if_pos hsend] at hc
          rcases List.mem_cons.mp hc with h1 | h1
          · rw [h1]; exact capChunk_length_le _
          · exact ih [] hlast' hints' c h1
        · rw [if_neg hsend] at hc
          exact ih (buf ++ x.chunk) hlast' hints' c hc

set_option maxRecDepth 40000 in
/-- Counterexample to C2 as stated: when the stream ends without a final
event, the leftover buffer (here 300 characters with no word break and
no trailing punctuation) is emitted by the end-of-stream flush
UNTRUNCATED — a 300-character chunk reaches the outbound channel, with
no ellipsis marker applied. -/
theorem llm_chunk_send_cap_counterexample :
    List.replicate 300 'a' ∈
      llm_chunk_send [⟨List.replicate 300 'a', false, false, false, false⟩] [] ∧
    200 < (List.replicate 300 'a').length ∧
    (List.replicate 300 'a').take 197 ++ "...".data ≠ List.replicate 300 'a' := by
  refine ⟨?_, by simp, by decide⟩
  have h : llm_chunk_send [⟨List.replicate 300 'a', false, false, false, false⟩] [] =
      [List.replicate 300 'a', []] := by decide
  rw [h]
  simp

set_option maxRecDepth 40000 in
/-- Witness for C2 (amended): a single final chunk of 250 characters is
flushed through the truncation branch, and the emitted 200-character
token is within the bound. -/
theorem llm_chunk_send_cap_witness :
    (List.replicate 197 'a' ++ "...".data).length ≤ 200 :=
  llm_chunk_send_cap [⟨List.replicate 250 'a', true, false, false, false⟩]
    ⟨List.replicate 250 'a', true, false, false, false⟩ (by decide) (by decide) (by decide)
    (by decide) (List.replicate 197 'a' ++ "...".data) (by decide)

-- sentinel markers and intent flags

/-- The call-termination sentinel marker. -/
def callEndMarker : List Char := "CALL_END:".data

/-- The human-handoff sentinel marker. -/
def handoffMarker : List Char := "HANDOFF_HUMAN:".data

/-- The flag-accumulating part of the streaming loop of
`llm_call_response_streaming` (llm_handler.py lines 85-96 and 149):
interstitial chunks are skipped (the `continue` at line 83); other
chunks raise `should_end_call` / `should_handoff` when their flags are
set, and their text is appended to the full response. -/
def llm_flags_go : List ChunkData → Bool → Bool → List Char → Bool × Bool × List Char
  | [], e, h, full => (e, h, full)
  | c :: cs, e, h, full =>
    if c.is_interstitial then llm_flags_go cs e h full
    else llm_flags_go cs (e || c.should_end_call) (h || c.should_handoff) (full ++ c.chunk)

/-- The `(should_end_call, should_handoff)` pair after the stream and the
fallback string-parsing step of llm_handler.py lines 152-159: the
handoff flag is additionally raised when `"HANDOFF_HUMAN:"` occurs in
the accumulated response; no analogous fallback exists for
`"CALL_END:"`. -/
def llm_stream_flags (events : List ChunkData) : Bool × Bool :=
  let r := llm_flags_go events false false []
  (r.1, if !r.2.1 && pyContainsB handoffMarker r.2.2 then true else r.2.1)

/-- The joined text of all non-interstitial chunks
(`full_response_parts` of llm_handler.py lines 58 and 85). -/
def fullRespOf (events : List ChunkData) : List Char :=
  ((events.filter fun c => !c.is_interstitial).map (fun c => c.chunk)).flatten

theorem llm_flags_go_spec :
    ∀ (events : List ChunkData) (e h : Bool) (full : List Char),
      llm_flags_go events e h full =
        (e || events.any (fun c => !c.is_interstitial && c.should_end_call),
         h || events.any (fun c => !c.is_interstitial && c.should_handoff),
         full ++ fullRespOf events) := by
  intro events
  induction events with
  | nil => intro e h full; simp [llm_flags_go, fullRespOf]
  | cons c cs ih =>
    intro e h full
    by_cases hc : c.is_interstitial
    · simp only [llm_flags_go, hc, if_true, ih]
      simp [fullRespOf, List.filter_cons, hc]
    · have hc' : c.is_interstitial = false := Bool.eq_false_iff.mpr hc
      simp only [llm_flags_go, hc', Bool.false_eq_true, if_false, ih]
      simp [fullRespOf, List.filter_cons, hc', Bool.or_assoc, List.append_assoc]

/-- C4 (amended).  Handoff intent is detected through BOTH channels: the
handoff flag ends up set exactly when some chunk carried the
tool-invocation flag or the `HANDOFF_HUMAN:` marker occurs in the
accumulated output text.  Call-end intent, in contrast, is detected ONLY
through the tool-invocation channel: the flag equals the disjunction of
the per-chunk tool flags, and a `CALL_END:` marker alone never sets it
(no string-parsing fallback exists for call end). -/
theorem intent_detection_channels (events : List ChunkData) :
    (llm_stream_flags events).2 =
      (events.any (fun c => !c.is_interstitial && c.should_handoff)
        || pyContainsB handoffMarker (fullRespOf events)) ∧
    (llm_stream_flags events).1 =
      events.any (fun c => !c.is_interstitial && c.should_end_call) := by
  simp only [llm_stream_flags, llm_flags_go_spec, Bool.false_or, List.nil_append]
  refine ⟨?_, trivial⟩
  cases hh : events.any (fun c => !c.is_interstitial && c.should_handoff) <;>
    cases hm : pyContainsB handoffMarker (fullRespOf events) <;> simp [hh, hm]

/-- Counterexample to C4 as stated: a turn whose only output chunk embeds
the `CALL_END:` sentinel but whose tool-invocation flags never fired
leaves `should_end_call` false (the marker channel does not work for
call end), while the same situation with `HANDOFF_HUMAN:` does set
`should_handoff`. -/
theorem intent_detection_channels_counterexample :
    (llm_stream_flags [⟨"CALL_END: Goodbye!".data, true, false, false, false⟩]).1 = false ∧
    pyContainsB callEndMarker
      (fullRespOf [⟨"CALL_END: Goodbye!".data, true, false, false, false⟩]) = true ∧
    (llm_stream_flags
      [⟨"HANDOFF_HUMAN: Transferring now.".data, true, false, false, false⟩]).2 = true := by
  decide

-- turn finalisation of generate_agent_response_stream (agent.py lines 90-236)

/-- The fallback chunk yielded by the `except` block of
`generate_agent_response_stream` (agent.py lines 228-236). -/
def apologyEvent : ChunkData :=
  ⟨"I'm sorry, I'm having trouble processing your request right now.".data,
    true, false, false, false⟩

/-- Python `full.split(marker, 1)[1]` when the marker is known to occur:
everything after the first occurrence. -/
def splitAfterMarker (marker hay : List Char) : List Char :=
  match strFind marker hay with
  | some i => hay.drop (i + marker.length)
  | none => hay

/-- Outcome of the background agent run of one turn: either the
exception path (carrying whatever chunk events were already yielded
before the failure surfaced), or the success path with the streamed
tokens, the handler's sticky flags, and the interstitials sent. -/
inductive GenResult where
  | genError (pre : List ChunkData)
  | genOk (tokens : List String) (call_end handoff : Bool) (interstitials : List String)

/-- History update and yielded events of one turn of
`generate_agent_response_stream` (agent.py lines 106-236): the user
message is appended BEFORE the `try` block (line 111); on success the
marker-stripped assistant reply and the sent interstitials are appended
and a final empty event is yielded (lines 202-226); on failure the
single apologetic final event is yielded and nothing further is appended
(lines 228-236). -/
def generate_stream_turn (history : List HistEntry) (user_message : String) (r : GenResult) :
    List HistEntry × List ChunkData :=
  let h1 := history ++ [⟨"user", user_message.data, none⟩]
  match r with
  | .genError pre => (h1, pre ++ [apologyEvent])
  | .genOk tokens call_end handoff inters =>
    let full_response := (tokens.map String.data).flatten
    let entry : HistEntry :=
      if call_end && pyContainsB callEndMarker full_response then
        ⟨"assistant", pyStrip (splitAfterMarker callEndMarker full_response), none⟩
      else if handoff && pyContainsB handoffMarker full_response then
        ⟨"assistant", pyStrip (splitAfterMarker handoffMarker full_response), none⟩
      else ⟨"assistant", full_response, none⟩
    (h1 ++ [entry] ++ inters.map (fun p => ⟨"assistant", p.data, some "interstitial"⟩),
     tokens.map (fun t => (⟨t.data, false, call_end, handoff, false⟩ : ChunkData))
       ++ [⟨[], true, call_end, handoff, false⟩])

/-- C5 (amended).  When generation fails, the turn yields the apologetic
fallback chunk as its last event, and that is the only final
non-interstitial event (token chunks yielded before the failure are
non-final); but the History is NOT left unmodified: the user message was
already appended before generation started, so exactly that one entry is
added — no assistant entry is added, changed or removed. -/
theorem generation_failure_containment (history : List HistEntry) (user_message : String)
    (pre : List ChunkData)
    (hpre : ∀ c ∈ pre, c.is_interstitial = false → c.is_final = false) :
    (generate_stream_turn history user_message (.genError pre)).1 =
      history ++ [⟨"user", user_message.data, none⟩] ∧
    ((generate_stream_turn history user_message (.genError pre)).1.filter
        (fun e => e.role == "assistant")) =
      history.filter (fun e => e.role == "assistant") ∧
    (generate_stream_turn history user_message (.genError pre)).2.getLast? =
      some apologyEvent ∧
    ((generate_stream_turn history user_message (.genError pre)).2.filter
        (fun c => !c.is_interstitial && c.is_final)).length = 1 := by
  have hunf : generate_stream_turn history user_message (.genError pre) =
      (history ++ [HistEntry.mk "user" user_message.data none], pre ++ [apologyEvent]) := rfl
  rw [hunf]
  refine ⟨rfl, ?_, ?_, ?_⟩
  · rw [List.filter_append]
    simp
  · exact List.getLast?_concat _
  · rw [List.filter_append]
    have hpf : pre.filter (fun c => !c.is_interstitial && c.is_final) = [] := by
      rw [List.filter_eq_nil_iff]
      intro c hc
      by_cases hci : c.is_interstitial
      · simp [hci]
      · have hci' : c.is_interstitial = false := Bool.eq_false_iff.mpr hci
        simp [hci', hpre c hc hci']
    rw [hpf]
    rfl

/-- Counterexample to C5 as stated: a failing turn on an empty history
does NOT leave the history unmodified — the user entry has been
appended. -/
theorem generation_failure_containment_counterexample :
    (generate_stream_turn [] "hi" (.genError [])).1 ≠ ([] : List HistEntry) := by
  decide

/-- Witness for C5 (amended) on a concrete failing turn. -/
theorem generation_failure_containment_witness :
    (generate_stream_turn [] "hi" (.genError [])).2.getLast? = some apologyEvent :=
  (generation_failure_containment [] "hi" [] (by decide)).2.2.1

-- the streaming callback handler and the turn event loop
-- (handlers.py StreamingCallbackHandler + agent.py lines 131-192)

/-- The fixed filler-phrase rotation of `StreamingCallbackHandler.__init__`
(handlers.py lines 22-29). -/
def interstitial_phrases : List String :=
  ["Let me check that for you...",
   "One moment please...",
   "I'm looking into that...",
   "Just a second...",
   "Let me find that information...",
   "Give me just a moment..."]

/-- Tools that must not trigger interstitials (handlers.py lines 31-34). -/
def no_interstitial_tools : List String := ["end_call", "escalate_to_human_agent"]

/-- The mutable state of one session's `StreamingCallbackHandler`
together with the local variables of the streaming loop of
`generate_agent_response_stream` (agent.py lines 157-158):
`last_token_count` and `sent_this_response` are the loop's
`last_token_count` and `interstitial_sent_this_response`; `timer_alive`
models `interstitial_timer.is_alive()`. -/
structure TurnState where
  buffer : List Char
  tokens : List String
  tool_executing : Bool
  call_end_detected : Bool
  handoff_detected : Bool
  current_tool : Option String
  phrase_index : Nat
  interstitial_sent : Bool
  interstitial_ready : Bool
  sent_interstitials : List String
  timer_alive : Bool
  last_token_count : Nat
  sent_this_response : Bool
deriving DecidableEq

/-- `StreamingCallbackHandler.__init__` (handlers.py lines 13-38) plus
the loop-variable initialisation of agent.py lines 157-158. -/
def initHandlerState : TurnState :=
  ⟨[], [], false, false, false, none, 0, false, false, [], false, 0, false⟩

/-- The per-turn reset of agent.py lines 131-142 (phrase_index is
deliberately NOT reset; the pending timer is cancelled), together with
fresh loop variables for the new turn. -/
def resetTurnState (s : TurnState) : TurnState :=
  { s with buffer := [], tokens := [], tool_executing := false,
           call_end_detected := false, handoff_detected := false,
           interstitial_sent := false, interstitial_ready := false,
           sent_interstitials := [], timer_alive := false,
           last_token_count := 0, sent_this_response := false }

/-- `StreamingCallbackHandler.get_next_interstitial` (handlers.py
lines 135-143): round-robin selection advancing the cursor modulo the
phrase count. -/
def get_next_interstitial (s : TurnState) : String × TurnState :=
  (interstitial_phrases.getD s.phrase_index "",
   { s with phrase_index := (s.phrase_index + 1) % interstitial_phrases.length })

/-- `StreamingCallbackHandler.should_send_interstitial` (handlers.py
lines 145-160). -/
def should_send_interstitial (s : TurnState) : Bool :=
  s.interstitial_ready && !s.interstitial_sent &&
    !s.call_end_detected && !s.handoff_detected

/-- The events that can happen, in any interleaving, during one turn:
the LLM/tool callbacks of handlers.py, the 0.4 s timer firing, and one
iteration of the polling loop of agent.py lines 160-192. -/
inductive AgentEvent where
  | tokenArrive (t : String)
  | llmStart
  | llmEnd
  | toolStart (name : String)
  | toolEnd
  | timerFire
  | loopIter
deriving DecidableEq

/-- Outbound events yielded by the streaming loop: the interstitial
yield of agent.py lines 171-177 and the token-chunk yield of
lines 180-188 (carrying the flag values read at that moment). -/
inductive TurnEvent where
  | interstitial (phrase : String)
  | chunk (t : String) (endFlag handoffFlag : Bool)
deriving DecidableEq

def TurnEvent.isInterEv : TurnEvent → Bool
  | .interstitial _ => true
  | .chunk .. => false

def AgentEvent.isTok : AgentEvent → Bool
  | .tokenArrive _ => true
  | _ => false

def AgentEvent.isFire : AgentEvent → Bool
  | .timerFire => true
  | _ => false

/-- One atomic step of the per-turn system: the handler callbacks
(handlers.py lines 40-133) and one iteration of the streaming loop
(agent.py lines 160-192), together with the outbound events it yields. -/
def stepTurn (s : TurnState) : AgentEvent → TurnState × List TurnEvent
  | .tokenArrive t =>
    ({ s with tokens := s.tokens ++ [t],
              buffer := s.buffer ++ t.data,
              timer_alive := false,
              interstitial_sent :=
                if s.interstitial_sent && stripTruthy t.data then false
                else s.interstitial_sent }, [])
  | .llmStart => ({ s with interstitial_sent := false, interstitial_ready := false }, [])
  | .llmEnd => ({ s with timer_alive := false }, [])
  | .toolStart name =>
    let s1 := { s with tool_executing := true, current_tool := some name }
    if name = "end_call" then ({ s1 with call_end_detected := true }, [])
    else if name = "escalate_to_human_agent" then ({ s1 with handoff_detected := true }, [])
    else if !(no_interstitial_tools.contains name) && !s1.timer_alive then
      ({ s1 with timer_alive := true }, [])
    else (s1, [])
  | .toolEnd => ({ s with tool_executing := false, current_tool := none }, [])
  | .timerFire =>
    if s.timer_alive then
      let s1 := { s with timer_alive := false }
      if !s1.interstitial_sent && !s1.interstitial_ready then
        if s1.call_end_detected || s1.handoff_detected then (s1, [])
        else ({ s1 with interstitial_ready := true }, [])
      else (s1, [])
    else (s, [])
  | .loopIter =>
    let sendPair :=
      if should_send_interstitial s && !s.sent_this_response then
        let pick := get_next_interstitial s
        ({ pick.2 with interstitial_sent := true,
                       interstitial_ready := false,
                       sent_this_response := true,
                       sent_interstitials := s.sent_interstitials ++ [pick.1] },
         [TurnEvent.interstitial pick.1])
      else (s, ([] : List TurnEvent))
    let s1 := sendPair.1
    let newToks := s1.tokens.drop s1.last_token_count
    ({ s1 with last_token_count := s1.tokens.length },
     sendPair.2 ++ newToks.map
       (fun t => TurnEvent.chunk t s1.call_end_detected s1.handoff_detected))

/-- Run a schedule of events from a state, accumulating outbound events. -/
def runTurn : TurnState → List AgentEvent → TurnState × List TurnEvent
  | s, [] => (s, [])
  | s, e :: es =>
    let step := stepTurn s e
    let rest := runTurn step.1 es
    (rest.1, step.2 ++ rest.2)

/-- `true` while no interstitial has been emitted after a chunk: scans
the event list left to right, failing if an interstitial follows any
chunk. -/
def ordChk : Bool → List TurnEvent → Bool
  | _, [] => true
  | seenChunk, .interstitial _ :: r => if seenChunk then false else ordChk seenChunk r
  | _, .chunk .. :: r => ordChk true r

def hasChunkB (tr : List TurnEvent) : Bool := tr.any (fun ev => !ev.isInterEv)

/-- C8.  The per-turn reset of agent.py preserves the filler rotation
cursor while clearing all Turn State fields (buffer, tokens, tool and
call flags, interstitial state, sent list, pending timer); each
selection advances the cursor by one modulo the phrase-list length; and
two consecutive selections in a session never return the same phrase. -/
theorem rotation_cursor_persistence (s : TurnState)
    (h : s.phrase_index < interstitial_phrases.length) :
    (resetTurnState s).phrase_index = s.phrase_index ∧
    (resetTurnState s).buffer = [] ∧
    (resetTurnState s).tokens = [] ∧
    (resetTurnState s).tool_executing = false ∧
    (resetTurnState s).call_end_detected = false ∧
    (resetTurnState s).handoff_detected = false ∧
    (resetTurnState s).interstitial_sent = false ∧
    (resetTurnState s).interstitial_ready = false ∧
    (resetTurnState s).sent_interstitials = [] ∧
    (resetTurnState s).timer_alive = false ∧
    (get_next_interstitial s).2.phrase_index =
      (s.phrase_index + 1) % interstitial_phrases.length ∧
    (get_next_interstitial s).1 ≠ (get_next_interstitial (get_next_interstitial s).2).1 := by
  refine ⟨rfl, rfl, rfl, rfl, rfl, rfl, rfl, rfl, rfl, rfl, rfl, ?_⟩
  have key : ∀ i, i < interstitial_phrases.length →
      interstitial_phrases.getD i "" ≠
        interstitial_phrases.getD ((i + 1) % interstitial_phrases.length) "" := by decide
  exact key s.phrase_index h

/-- Witness for C8 on the fresh handler state. -/
theorem rotation_cursor_persistence_witness :
    (resetTurnState initHandlerState).phrase_index = initHandlerState.phrase_index ∧
    (get_next_interstitial initHandlerState).1 ≠
      (get_next_interstitial (get_next_interstitial initHandlerState).2).1 := by
  obtain ⟨h1, _, _, _, _, _, _, _, _, _, _, h12⟩ :=
    rotation_cursor_persistence initHandlerState (by decide)
  exact ⟨h1, h12⟩

-- step lemmas for the turn state machine

theorem stepTurn_out_nil (s : TurnState) (e : AgentEvent) (h : e ≠ .loopIter) :
    (stepTurn s e).2 = [] := by
  cases e with
  | tokenArrive t => rfl
  | llmStart => rfl
  | llmEnd => rfl
  | toolStart name =>
    simp only [stepTurn]
    split_ifs <;> rfl
  | toolEnd => rfl
  | timerFire =>
    simp only [stepTurn]
    split_ifs <;> rfl
  | loopIter => exact absurd rfl h

theorem stepTurn_loopIter_eq (s : TurnState) :
    stepTurn s .loopIter =
      if should_send_interstitial s && !s.sent_this_response then
        ({ s with phrase_index := (s.phrase_index + 1) % interstitial_phrases.length,
                  interstitial_sent := true, interstitial_ready := false,
                  sent_this_response := true,
                  sent_interstitials :=
                    s.sent_interstitials ++ [interstitial_phrases.getD s.phrase_index ""],
                  last_token_count := s.tokens.length },
         TurnEvent.interstitial (interstitial_phrases.getD s.phrase_index "") ::
           (s.tokens.drop s.last_token_count).map
             (fun t => TurnEvent.chunk t s.call_end_detected s.handoff_detected))
      else
        ({ s with last_token_count := s.tokens.length },
         (s.tokens.drop s.last_token_count).map
           (fun t => TurnEvent.chunk t s.call_end_detected s.handoff_detected)) := by
  cases hc : should_send_interstitial s && !s.sent_this_response with
  | false =>
    simp only [stepTurn, hc, Bool.false_eq_true, if_false]
    rfl
  | true =>
    simp only [stepTurn, hc, if_true, get_next_interstitial]
    rfl

theorem stepTurn_call_end_mono (s : TurnState) (e : AgentEvent)
    (h : s.call_end_detected = true) : (stepTurn s e).1.call_end_detected = true := by
  cases e with
  | tokenArrive t => exact h
  | llmStart => exact h
  | llmEnd => exact h
  | toolStart name =>
    simp only [stepTurn]
    split_ifs <;> simp [h]
  | toolEnd => exact h
  | timerFire =>
    simp only [stepTurn]
    split_ifs <;> simp [h]
  | loopIter =>
    rw [stepTurn_loopIter_eq]
    split_ifs <;> simp [h]

theorem stepTurn_handoff_mono (s : TurnState) (e : AgentEvent)
    (h : s.handoff_detected = true) : (stepTurn s e).1.handoff_detected = true := by
  cases e with
  | tokenArrive t => exact h
  | llmStart => exact h
  | llmEnd => exact h
  | toolStart name =>
    simp only [stepTurn]
    split_ifs <;> simp [h]
  | toolEnd => exact h
  | timerFire =>
    simp only [stepTurn]
    split_ifs <;> simp [h]
  | loopIter =>
    rw [stepTurn_loopIter_eq]
    split_ifs <;> simp [h]

theorem stepTurn_no_inter_of_flag (s : TurnState) (e : AgentEvent)
    (h : s.call_end_detected = true ∨ s.handoff_detected = true) :
    ∀ ev ∈ (stepTurn s e).2, ev.isInterEv = false := by
  intro ev hev
  by_cases hl : e = AgentEvent.loopIter
  · subst hl
    have hss : should_send_interstitial s = false := by
      unfold should_send_interstitial
      rcases h with h | h <;> simp [h]
    rw [stepTurn_loopIter_eq] at hev
    rw [hss] at hev
    simp only [Bool.false_and, Bool.false_eq_true, if_false] at hev
    simp only [List.mem_map] at hev
    obtain ⟨t, _, rfl⟩ := hev
    rfl
  · rw [stepTurn_out_nil s e hl] at hev
    simp at hev

/-- C6 (amended).  Once `callEndRequested` or `handoffRequested` is set,
no interstitial is ever emitted for the remainder of the turn, under any
schedule of callbacks, timer firings and loop iterations.  (A timer may
still be STARTED by a later non-excluded tool invocation — contrary to
the claim's "no interstitial timer is started" — but its firing never
readies an interstitial and nothing is sent; see the counterexample.) -/
theorem no_interstitial_after_flag (s : TurnState) (sched : List AgentEvent)
    (h : s.call_end_detected = true ∨ s.handoff_detected = true) :
    ∀ ev ∈ (runTurn s sched).2, ev.isInterEv = false := by
  induction sched generalizing s with
  | nil =>
    intro ev hev
    simp [runTurn] at hev
  | cons e es ih =>
    intro ev hev
    simp only [runTurn] at hev
    rw [List.mem_append] at hev
    rcases hev with h1 | h1
    · exact stepTurn_no_inter_of_flag s e h ev h1
    · have h' : (stepTurn s e).1.call_end_detected = true ∨
          (stepTurn s e).1.handoff_detected = true := by
        rcases h with h | h
        · exact Or.inl (stepTurn_call_end_mono s e h)
        · exact Or.inr (stepTurn_handoff_mono s e h)
      exact ih (stepTurn s e).1 h' ev h1

/-- Counterexample to C6 as stated: after the `end_call` tool sets
`callEndRequested`, a later `check_stock` tool start STILL starts an
interstitial timer (handlers.py lines 89-96 never consult the flags), so
"no interstitial timer is started" is false — only the sending is
suppressed. -/
theorem no_interstitial_after_flag_counterexample :
    (runTurn initHandlerState [.toolStart "end_call"]).1.call_end_detected = true ∧
    (runTurn initHandlerState [.toolStart "end_call"]).1.timer_alive = false ∧
    (runTurn initHandlerState
      [.toolStart "end_call", .toolStart "check_stock"]).1.timer_alive = true := by
  decide

/-- Witness for C6 (amended) on a concrete post-flag schedule. -/
theorem no_interstitial_after_flag_witness :
    TurnEvent.isInterEv (.chunk "Hi" true false) = false :=
  no_interstitial_after_flag (runTurn initHandlerState [.toolStart "end_call"]).1
    [.tokenArrive "Hi", .loopIter] (Or.inl (by decide))
    (.chunk "Hi" true false) (by decide)

/-- Number of interstitial events in an outbound trace. -/
def countInter (tr : List TurnEvent) : Nat := tr.countP (fun ev => ev.isInterEv)

theorem countInter_append (x y : List TurnEvent) :
    countInter (x ++ y) = countInter x + countInter y := List.countP_append _ _ _

theorem countInter_chunks (l : List String) (a b : Bool) :
    countInter (l.map fun t => TurnEvent.chunk t a b) = 0 := by
  unfold countInter
  rw [List.countP_eq_zero]
  intro ev hev
  simp only [List.mem_map] at hev
  obtain ⟨t, _, rfl⟩ := hev
  simp [TurnEvent.isInterEv]

theorem stepTurn_sent_this_eq (s : TurnState) (e : AgentEvent) (h : e ≠ .loopIter) :
    (stepTurn s e).1.sent_this_response = s.sent_this_response := by
  cases e with
  | toolStart name => simp only [stepTurn]; split_ifs <;> rfl
  | timerFire => simp only [stepTurn]; split_ifs <;> rfl
  | loopIter => exact absurd rfl h
  | tokenArrive t => rfl
  | llmStart => rfl
  | llmEnd => rfl
  | toolEnd => rfl

theorem stepTurn_count (s : TurnState) (e : AgentEvent) :
    ((stepTurn s e).1.sent_this_response = s.sent_this_response ∧
      countInter (stepTurn s e).2 = 0) ∨
    (s.sent_this_response = false ∧ (stepTurn s e).1.sent_this_response = true ∧
      countInter (stepTurn s e).2 = 1) := by
  by_cases hl : e = AgentEvent.loopIter
  · subst hl
    rw [stepTurn_loopIter_eq]
    cases hc : should_send_interstitial s && !s.sent_this_response with
    | false =>
      left
      simp only [Bool.false_eq_true, if_false]
      refine ⟨by trivial, ?_⟩
      exact countInter_chunks _ _ _
    | true =>
      right
      have hs : s.sent_this_response = false := by
        have hc' := hc
        simp at hc'
        exact hc'.2
      simp only [if_true]
      refine ⟨hs, by trivial, ?_⟩
      unfold countInter
      rw [List.countP_cons]
      have hch := countInter_chunks (s.tokens.drop s.last_token_count)
        s.call_end_detected s.handoff_detected
      unfold countInter at hch
      rw [hch]
      simp [TurnEvent.isInterEv]
  · left
    rw [stepTurn_out_nil s e hl]
    exact ⟨stepTurn_sent_this_eq s e hl, rfl⟩

theorem countInter_runTurn (sched : List AgentEvent) : ∀ s : TurnState,
    countInter (runTurn s sched).2 ≤ if s.sent_this_response then 0 else 1 := by
  induction sched with
  | nil =>
    intro s
    exact Nat.zero_le _
  | cons e es ih =>
    intro s
    simp only [runTurn]
    rw [countInter_append]
    rcases stepTurn_count s e with ⟨h1, h2⟩ | ⟨h1, h2, h3⟩
    · have hr := ih (stepTurn s e).1
      rw [h1] at hr
      rw [h2]
      simpa using hr
    · have hr := ih (stepTurn s e).1
      rw [h2] at hr
      simp only [if_true, Nat.le_zero] at hr
      rw [h3, h1, hr]
      simp

theorem runTurn_append (A B : List AgentEvent) : ∀ s : TurnState,
    runTurn s (A ++ B) =
      ((runTurn (runTurn s A).1 B).1, (runTurn s A).2 ++ (runTurn (runTurn s A).1 B).2) := by
  induction A with
  | nil => intro s; simp [runTurn]
  | cons e es ih =>
    intro s
    simp only [List.cons_append, runTurn, List.append_eq]
    rw [ih (stepTurn s e).1]
    simp [List.append_assoc]

/-- Once this guard holds (interstitial already counted for the turn, a
call-ending flag set, or the timer not `Ready`), the loop can no longer
emit an interstitial — and, absent further timer firings, the guard is
stable. -/
def interGuard (s : TurnState) : Bool :=
  s.sent_this_response || s.call_end_detected || s.handoff_detected || !s.interstitial_ready

/-- `interstitial_sent` is only ever set by an emission, which also sets
the loop-local `interstitial_sent_this_response`. -/
def sentInv (s : TurnState) : Prop :=
  s.interstitial_sent = true → s.sent_this_response = true

theorem ordChk_append (x : List TurnEvent) : ∀ (y : List TurnEvent) (b : Bool),
    ordChk b (x ++ y) = (ordChk b x && ordChk (b || hasChunkB x) y) := by
  induction x with
  | nil => intro y b; simp [ordChk, hasChunkB]
  | cons ev r ih =>
    intro y b
    cases ev with
    | interstitial p =>
      cases b with
      | true => simp [ordChk]
      | false =>
        simp only [List.cons_append, ordChk, Bool.false_eq_true, if_false, List.append_eq]
        rw [ih]
        have hh : hasChunkB (TurnEvent.interstitial p :: r) = hasChunkB r := by
          simp [hasChunkB, TurnEvent.isInterEv]
        rw [hh]
    | chunk t a c =>
      simp only [List.cons_append, ordChk, List.append_eq]
      rw [ih y true]
      have hh : hasChunkB (TurnEvent.chunk t a c :: r) = true := by
        simp [hasChunkB, TurnEvent.isInterEv]
      rw [hh]
      simp

theorem ordChk_chunks (l : List String) (a c : Bool) : ∀ b : Bool,
    ordChk b (l.map fun t => TurnEvent.chunk t a c) = true := by
  induction l with
  | nil => intro b; rfl
  | cons t ts ih =>
    intro b
    simp only [List.map_cons, ordChk]
    exact ih true

theorem ordChk_of_no_chunks (tr : List TurnEvent) (h : ∀ ev ∈ tr, ev.isInterEv = true) :
    ordChk false tr = true ∧ hasChunkB tr = false := by
  induction tr with
  | nil => exact ⟨rfl, rfl⟩
  | cons ev r ih =>
    have hev := h ev (by simp)
    cases ev with
    | chunk t a c => simp [TurnEvent.isInterEv] at hev
    | interstitial p =>
      obtain ⟨h1, h2⟩ := ih (fun x hx => h x (by simp [hx]))
      constructor
      · simpa [ordChk] using h1
      · simpa [hasChunkB, TurnEvent.isInterEv] using h2

theorem interGuard_step (s : TurnState) (e : AgentEvent) (hf : e.isFire = false)
    (h : interGuard s = true) : interGuard (stepTurn s e).1 = true := by
  cases e with
  | tokenArrive t => exact h
  | llmStart => simp [interGuard, stepTurn]
  | llmEnd => exact h
  | toolEnd => exact h
  | timerFire => simp [AgentEvent.isFire] at hf
  | toolStart name =>
    simp only [stepTurn]
    split_ifs <;> simp_all [interGuard]
  | loopIter =>
    rw [stepTurn_loopIter_eq]
    split_ifs with hc
    · simp [interGuard]
    · exact h

theorem no_emission_guard (s : TurnState) (hinv : sentInv s)
    (h : (should_send_interstitial s && !s.sent_this_response) = false) :
    interGuard s = true := by
  unfold should_send_interstitial at h
  unfold interGuard
  cases hst : s.sent_this_response
  · cases hce : s.call_end_detected
    · cases hho : s.handoff_detected
      · cases hrd : s.interstitial_ready
        · simp [hrd]
        · cases his : s.interstitial_sent
          · rw [hst, hce, hho, hrd, his] at h
            simp at h
          · have hc := hinv his
            rw [hst] at hc
            cases hc
      · simp [hho]
    · simp [hce]
  · simp [hst]

theorem sentInv_step (s : TurnState) (e : AgentEvent) (hinv : sentInv s) :
    sentInv (stepTurn s e).1 := by
  cases e with
  | tokenArrive t =>
    intro h
    have hs : s.interstitial_sent = true := by
      by_cases hcond : (s.interstitial_sent && stripTruthy t.data) = true
      · simp only [stepTurn, hcond, if_true] at h
        cases h
      · have hcond' : (s.interstitial_sent && stripTruthy t.data) = false :=
          Bool.eq_false_iff.mpr hcond
        simp only [stepTurn, hcond', Bool.false_eq_true, if_false] at h
        exact h
    exact hinv hs
  | llmStart =>
    intro h
    cases h
  | llmEnd => exact hinv
  | toolEnd => exact hinv
  | toolStart name =>
    intro h
    have hs : s.interstitial_sent = true := by
      simp only [stepTurn] at h
      split_ifs at h <;> exact h
    have hss := hinv hs
    simp only [stepTurn]
    split_ifs <;> exact hss
  | timerFire =>
    intro h
    have hs : s.interstitial_sent = true := by
      simp only [stepTurn] at h
      split_ifs at h <;> exact h
    have hss := hinv hs
    simp only [stepTurn]
    split_ifs <;> exact hss
  | loopIter =>
    rw [stepTurn_loopIter_eq]
    split_ifs with hc
    · intro _
      rfl
    · intro h
      exact hinv h

theorem sentInv_run (sched : List AgentEvent) : ∀ s : TurnState,
    sentInv s → sentInv (runTurn s sched).1 := by
  induction sched with
  | nil => intro s h; exact h
  | cons e es ih =>
    intro s h
    exact ih (stepTurn s e).1 (sentInv_step s e h)

theorem runTurn_ordChk (sched : List AgentEvent) : ∀ (s : TurnState) (seen : Bool),
    (∀ e ∈ sched, e.isFire = false) → sentInv s →
    (seen = true → interGuard s = true) →
    ordChk seen (runTurn s sched).2 = true := by
  induction sched with
  | nil =>
    intro s seen _ _ _
    cases seen <;> rfl
  | cons e es ih =>
    intro s seen hnf hinv hseen
    have hf : e.isFire = false := hnf e (by simp)
    have hnf' : ∀ x ∈ es, x.isFire = false := fun x hx => hnf x (by simp [hx])
    have hinv' : sentInv (stepTurn s e).1 := sentInv_step s e hinv
    simp only [runTurn]
    rw [ordChk_append]
    by_cases hl : e = AgentEvent.loopIter
    · subst hl
      by_cases hc : (should_send_interstitial s && !s.sent_this_response) = true
      · have hcomp := (Bool.and_eq_true _ _).mp hc
        have hready : s.interstitial_ready = true := by
          have h1 := hcomp.1
          unfold should_send_interstitial at h1
          exact ((Bool.and_eq_true _ _).mp ((Bool.and_eq_true _ _).mp
            ((Bool.and_eq_true _ _).mp h1).1).1).1
        have hce : s.call_end_detected = false := by
          have h1 := hcomp.1
          unfold should_send_interstitial at h1
          have := ((Bool.and_eq_true _ _).mp ((Bool.and_eq_true _ _).mp h1).1).2
          simpa using this
        have hho : s.handoff_detected = false := by
          have h1 := hcomp.1
          unfold should_send_interstitial at h1
          have := ((Bool.and_eq_true _ _).mp h1).2
          simpa using this
        have hst : s.sent_this_response = false := by
          have := hcomp.2
          simpa using this
        have hg : interGuard s = false := by
          unfold interGuard
          rw [hst, hce, hho, hready]
          rfl
        have hseen' : seen = false := by
          cases hsn : seen with
          | false => rfl
          | true => rw [hseen hsn] at hg; cases hg
        subst hseen'
        rw [stepTurn_loopIter_eq]
        rw [hc]
        simp only [if_true]
        rw [Bool.and_eq_true]
        constructor
        · simp only [ordChk, Bool.false_eq_true, if_false]
          exact ordChk_chunks _ _ _ false
        · apply ih _ _ hnf'
          · have := hinv'
            rw [stepTurn_loopIter_eq, hc] at this
            simpa using this
          · intro _
            simp [interGuard]
      · have hc' : (should_send_interstitial s && !s.sent_this_response) = false :=
          Bool.eq_false_iff.mpr hc
        have hgs : interGuard s = true := no_emission_guard s hinv hc'
        rw [stepTurn_loopIter_eq]
        rw [hc']
        simp only [Bool.false_eq_true, if_false]
        rw [Bool.and_eq_true]
        constructor
        · exact ordChk_chunks _ _ _ seen
        · apply ih _ _ hnf'
          · have := hinv'
            rw [stepTurn_loopIter_eq, hc'] at this
            simpa using this
          · intro _
            have hstep : interGuard (stepTurn s .loopIter).1 = true :=
              interGuard_step s .loopIter rfl hgs
            rw [stepTurn_loopIter_eq, hc'] at hstep
            simpa using hstep
    · rw [stepTurn_out_nil s e hl]
      have h1 : ordChk seen ([] : List TurnEvent) = true := by cases seen <;> rfl
      rw [h1]
      have h2 : hasChunkB ([] : List TurnEvent) = false := rfl
      rw [h2, Bool.or_false, Bool.true_and]
      exact ih (stepTurn s e).1 seen hnf' hinv'
        (fun hs => interGuard_step s e hf (hseen hs))

theorem stepTurn_tokens_eq (s : TurnState) (e : AgentEvent) (h : e.isTok = false) :
    (stepTurn s e).1.tokens = s.tokens := by
  cases e with
  | tokenArrive t => simp [AgentEvent.isTok] at h
  | llmStart => rfl
  | llmEnd => rfl
  | toolEnd => rfl
  | toolStart name =>
    simp only [stepTurn]
    split_ifs <;> rfl
  | timerFire =>
    simp only [stepTurn]
    split_ifs <;> rfl
  | loopIter =>
    rw [stepTurn_loopIter_eq]
    split_ifs <;> rfl

theorem runTurn_no_tokens (A : List AgentEvent) : ∀ s : TurnState,
    (∀ e ∈ A, e.isTok = false) → s.tokens = [] →
    (runTurn s A).1.tokens = [] ∧ ∀ ev ∈ (runTurn s A).2, ev.isInterEv = true := by
  induction A with
  | nil =>
    intro s _ hs
    exact ⟨hs, by intro ev hev; simp [runTurn] at hev⟩
  | cons e es ih =>
    intro s hA hs
    have he : e.isTok = false := hA e (by simp)
    have hA' : ∀ x ∈ es, x.isTok = false := fun x hx => hA x (by simp [hx])
    have hs' : (stepTurn s e).1.tokens = [] := by rw [stepTurn_tokens_eq s e he, hs]
    have hstep : ∀ ev ∈ (stepTurn s e).2, ev.isInterEv = true := by
      intro ev hev
      by_cases hl : e = AgentEvent.loopIter
      · subst hl
        rw [stepTurn_loopIter_eq] at hev
        split_ifs at hev with hc
        · rw [hs] at hev
          simp only [List.drop_nil, List.map_nil] at hev
          rcases List.mem_cons.mp hev with h1 | h1
          · rw [h1]; rfl
          · simp at h1
        · rw [hs] at hev
          simp at hev
      · rw [stepTurn_out_nil s e hl] at hev
        simp at hev
    obtain ⟨ih1, ih2⟩ := ih (stepTurn s e).1 hA' hs'
    refine ⟨by simpa [runTurn] using ih1, ?_⟩
    intro ev hev
    simp only [runTurn] at hev
    rw [List.mem_append] at hev
    rcases hev with h1 | h1
    · exact hstep ev h1
    · exact ih2 ev h1

/-- C1 (amended).  For every turn (a run from a freshly reset handler
state), under ANY interleaving of callbacks, timer firings and loop
iterations, at most one interstitial event is emitted.  The interstitial
precedes every real chunk whenever every timer firing precedes every
token arrival in the schedule (the intended scenario: the tool delay
comes before any content) — but NOT in general: if real tokens are
yielded before a later tool call's timer fires, the interstitial is
emitted after real chunks (see the counterexample). -/
theorem interstitial_per_turn (s0 : TurnState) (sched : List AgentEvent) :
    countInter (runTurn (resetTurnState s0) sched).2 ≤ 1 ∧
    (∀ A B, sched = A ++ B → (∀ e ∈ A, e.isTok = false) → (∀ e ∈ B, e.isFire = false) →
      ordChk false (runTurn (resetTurnState s0) sched).2 = true) := by
  constructor
  · have h := countInter_runTurn sched (resetTurnState s0)
    have hr : (resetTurnState s0).sent_this_response = false := rfl
    rw [hr] at h
    simpa using h
  · intro A B hAB hA hB
    subst hAB
    rw [runTurn_append]
    have hinv0 : sentInv (resetTurnState s0) := by
      intro h
      cases h
    obtain ⟨htok, hnoch⟩ := runTurn_no_tokens A (resetTurnState s0) hA rfl
    obtain ⟨hordA, hchA⟩ := ordChk_of_no_chunks (runTurn (resetTurnState s0) A).2 hnoch
    rw [ordChk_append, hordA, hchA, Bool.true_and, Bool.false_or]
    exact runTurn_ordChk B (runTurn (resetTurnState s0) A).1 false hB
      (sentInv_run A (resetTurnState s0) hinv0) (by intro h; cases h)

/-- Counterexample to C1's ordering part as stated: content tokens
stream first and are yielded as chunks; only then does a slow tool start
and its timer fire, so the single interstitial is emitted AFTER the
turn's first real chunk. -/
theorem interstitial_per_turn_counterexample :
    (runTurn (resetTurnState initHandlerState)
        [.tokenArrive "Hi", .loopIter, .toolStart "check_stock", .timerFire, .loopIter]).2 =
      [.chunk "Hi" false false, .interstitial "Let me check that for you..."] ∧
    ordChk false (runTurn (resetTurnState initHandlerState)
        [.tokenArrive "Hi", .loopIter, .toolStart "check_stock", .timerFire, .loopIter]).2 =
      false := by
  decide

/-- Witness for C1 (amended) on a schedule where the timer fires before
any token arrives: at most one interstitial, and it precedes the chunk. -/
theorem interstitial_per_turn_witness :
    countInter (runTurn (resetTurnState initHandlerState)
        [.toolStart "check_stock", .timerFire, .tokenArrive "Hi", .loopIter]).2 ≤ 1 ∧
    ordChk false (runTurn (resetTurnState initHandlerState)
        [.toolStart "check_stock", .timerFire, .tokenArrive "Hi", .loopIter]).2 = true := by
  have h := interstitial_per_turn initHandlerState
    [.toolStart "check_stock", .timerFire, .tokenArrive "Hi", .loopIter]
  exact ⟨h.1, h.2 [.toolStart "check_stock", .timerFire] [.tokenArrive "Hi", .loopIter]
    rfl (by decide) (by decide)⟩
